import Mathlib

/-!
Shallow embedding of `fetch_processing_times.py`: a linear pipeline that
validates six environment variables, fetches paginated monitoring-log pages,
parses wrapped timestamps of the form `/Date(<digits>)/`, computes per-record
durations, reduces to the maximum-duration record per integration flow,
sorts the reduced records by duration descending (stable), truncates to the
top five, and publishes the result with a POST whose status is classified as
success (200/201/202) or failure.

Python dicts are modelled as association lists preserving insertion order
(Python 3.7+ semantics); `sorted(..., reverse=True)` (Timsort, stable) is
modelled as a stable insertion sort by duration descending; `re.search` over
the fixed pattern is modelled as a leftmost scan with a maximal digit run
(digits are ASCII, as timestamp payloads are); fallible Python code (KeyError,
TypeError, RuntimeError) is modelled with `Except`.
-/

/-- A Python value appearing in a fetched record's timestamp field: either a
string or some non-string value (whose exact shape the script never inspects:
passing it to `re.search` raises `TypeError`). -/
inductive PyVal where
  | str (s : String)
  | nonStr
deriving DecidableEq, Repr

/-- One raw record of a page's `results` array, as a record over the four keys
the script accesses; `none` models an absent key. The flow name and message
GUID are only ever copied, so they are kept as strings. -/
structure Entry where
  IntegrationFlowName : Option String
  MessageGuid : Option String
  LogStart : Option PyVal
  LogEnd : Option PyVal
deriving DecidableEq, Repr

/-- An uncaught Python exception of the script. -/
inductive PyError where
  | keyError (key : String)
  | typeError
  | runtimeError
deriving DecidableEq, Repr

/-- The literal characters of the regex before the capture group. -/
def dateOpen : List Char := ['/', 'D', 'a', 't', 'e', '(']

/-- The literal characters of the regex after the capture group. -/
def dateClose : List Char := [')', '/']

/-- Decimal reading of a digit run, as Python `int` does on the captured
group. -/
def digitsToNat (ds : List Char) : Nat :=
  ds.foldl (fun n c => 10 * n + (c.toNat - 48)) 0

/-- Attempt of the regex `/Date\((\d+)\)/` anchored at the head of `l`:
the literal opener, a non-empty maximal digit run, then the literal closer. -/
def matchDateAt (l : List Char) : Option Nat :=
  if dateOpen.isPrefixOf l then
    if (l.drop dateOpen.length).takeWhile Char.isDigit = [] then none
    else if dateClose.isPrefixOf ((l.drop dateOpen.length).dropWhile Char.isDigit) then
      some (digitsToNat ((l.drop dateOpen.length).takeWhile Char.isDigit))
    else none
  else none

/-- `re.search`: try the pattern at every position, leftmost match wins. -/
def searchDate : List Char → Option Nat
  | [] => none
  | c :: cs =>
    match matchDateAt (c :: cs) with
    | some n => some n
    | none => searchDate cs

/-- Source `parse_log_date`: extract the embedded integer of the first
`/Date(<digits>)/` occurrence, `None` when the pattern is absent. -/
def parse_log_date (s : String) : Option Int :=
  (searchDate s.data).map Int.ofNat

/-- Derived record of the aggregation stage (the dict literal built inside the
`duration_records` loop). -/
structure DurationRecord where
  IntegrationFlowName : String
  MessageGuid : String
  DurationMs : Int
  LogStart : Int
  LogEnd : Int
deriving DecidableEq, Repr

/-- Python `entry[key]` on a field the script reads as an arbitrary value. -/
def getItem (v : Option PyVal) (key : String) : Except PyError PyVal :=
  match v with
  | some x => .ok x
  | none => .error (.keyError key)

/-- Python `entry[key]` on a field the script only copies (string payload). -/
def getItemStr (v : Option String) (key : String) : Except PyError String :=
  match v with
  | some s => .ok s
  | none => .error (.keyError key)

/-- `parse_log_date(value)`: `re.search` on a non-string raises `TypeError`. -/
def parseField (v : PyVal) : Except PyError (Option Int) :=
  match v with
  | .str s => .ok (parse_log_date s)
  | .nonStr => .error .typeError

/-- One iteration of the `duration_records` loop, in source evaluation order:
look up and parse `LogStart`, then `LogEnd`; `continue` (yield nothing) when
either parse gives no value; otherwise look up the flow name and GUID and
build the record with duration `end - start`. -/
def processEntry (e : Entry) : Except PyError (Option DurationRecord) := do
  let vs ← getItem e.LogStart "LogStart"
  let start_ms ← parseField vs
  let ve ← getItem e.LogEnd "LogEnd"
  let end_ms ← parseField ve
  match start_ms, end_ms with
  | some s, some en => do
    let name ← getItemStr e.IntegrationFlowName "IntegrationFlowName"
    let guid ← getItemStr e.MessageGuid "MessageGuid"
    return some ⟨name, guid, en - s, s, en⟩
  | _, _ => return none

/-- The full `duration_records` loop over `all_results`, propagating the first
uncaught exception. -/
def duration_records (es : List Entry) : Except PyError (List DurationRecord) :=
  match es with
  | [] => .ok []
  | e :: rest => do
    let r ← processEntry e
    let rs ← duration_records rest
    match r with
    | some d => return d :: rs
    | none => return rs

/-- Python dict lookup on the insertion-ordered association list. -/
def lookup_flow (m : List (String × DurationRecord)) (f : String) :
    Option DurationRecord :=
  match m with
  | [] => none
  | (k, v) :: rest => if k = f then some v else lookup_flow rest f

/-- Python dict assignment `m[k] = r`: replace in place when the key exists
(insertion order kept), append otherwise. -/
def dict_put (m : List (String × DurationRecord)) (k : String)
    (r : DurationRecord) : List (String × DurationRecord) :=
  match m with
  | [] => [(k, r)]
  | (k0, v0) :: rest =>
    if k0 = k then (k0, r) :: rest else (k0, v0) :: dict_put rest k r

/-- The keys of the dict, in insertion order. -/
def dict_keys (m : List (String × DurationRecord)) : List String :=
  m.map Prod.fst

/-- Python `dict.values()`, in insertion order. -/
def dict_values (m : List (String × DurationRecord)) : List DurationRecord :=
  m.map Prod.snd

/-- One iteration of the `max_durations` loop: store the record when its flow
name is absent or its duration is strictly larger than the stored one. -/
def update_max (m : List (String × DurationRecord)) (r : DurationRecord) :
    List (String × DurationRecord) :=
  match lookup_flow m r.IntegrationFlowName with
  | none => dict_put m r.IntegrationFlowName r
  | some old =>
    if old.DurationMs < r.DurationMs then dict_put m r.IntegrationFlowName r
    else m

/-- Source `max_durations`: fold the update over the duration records. -/
def max_durations (rs : List DurationRecord) : List (String × DurationRecord) :=
  rs.foldl update_max []

/-- Per-key view of `update_max`: the running best record of one flow,
replaced only on a strictly larger duration. -/
def keep_max (o : Option DurationRecord) (r : DurationRecord) :
    Option DurationRecord :=
  match o with
  | none => some r
  | some old => if old.DurationMs < r.DurationMs then some r else some old

/-- Stable descending insertion: place `x` before the first element whose
duration is not larger, so earlier elements win ties. -/
def insert_desc (x : DurationRecord) : List DurationRecord → List DurationRecord
  | [] => [x]
  | y :: ys =>
    if x.DurationMs < y.DurationMs then y :: insert_desc x ys else x :: y :: ys

/-- Stable sort by duration descending, modelling
`sorted(..., key=..., reverse=True)`. -/
def sort_desc (l : List DurationRecord) : List DurationRecord :=
  l.foldr insert_desc []

/-- Source `top_5`: sort the reduced records by duration descending and keep
the first five. -/
def top_5 (m : List (String × DurationRecord)) : List DurationRecord :=
  (sort_desc (dict_values m)).take 5

/-- One page response of the upstream API, as the script reads it:
HTTP status, the `d.results` array (empty when absent), the `d.__next`
continuation value, and the raw body text used for logging. -/
structure PageResp where
  status : Nat
  results : List Entry
  nextLink : Option String
  body : String

/-- Console output of the script, kept structured. -/
inductive LogEvent where
  | requesting (url : String)
  | requestFailed (status : Nat) (body : String)
deriving DecidableEq, Repr

/-- Continuation handling of the fetch loop: a missing or empty (falsy) link
ends pagination; a link not starting with `http` is resolved against the
base URL. -/
def next_url (base : String) (link : Option String) : Option String :=
  match link with
  | none => none
  | some l =>
    if l.isEmpty then none
    else if l.startsWith "http" then some l
    else some (base ++ "/" ++ l)

/-- What one pagination run produced: the console log, the requested URLs in
order, and the accumulated `all_results`. -/
structure FetchOutcome where
  logs : List LogEvent
  urls : List String
  results : List Entry
deriving Repr

/-- The `while next_url` fetch loop. The environment is the list of responses
the server returns to the successive requests; `fuel` bounds the number of
iterations and `none` means the loop did not finish within it (or the server
had no response left for a pending request). On a 200 response the page's
results are appended and the continuation followed; on any other status the
loop logs the status and body and breaks with what was accumulated. -/
def fetch_pages (base : String) (pages : List PageResp) (url : String) :
    Nat → Option FetchOutcome
  | 0 => none
  | fuel + 1 =>
    match pages with
    | [] => none
    | p :: rest =>
      if p.status = 200 then
        match next_url base p.nextLink with
        | some u =>
          match fetch_pages base rest u fuel with
          | some o =>
            some ⟨.requesting url :: o.logs, url :: o.urls, p.results ++ o.results⟩
          | none => none
        | none => some ⟨[.requesting url], [url], p.results⟩
      else
        some ⟨[.requesting url, .requestFailed p.status p.body], [url], []⟩

/-- The six environment variables, `none` when absent. -/
structure Env where
  SAP_USERNAME : Option String
  SAP_PASSWORD : Option String
  SAP_BASE_URL : Option String
  IFLOW_URL : Option String
  IFLOW_USERNAME : Option String
  IFLOW_PASSWORD : Option String

/-- Python truthiness of `os.environ.get(...)`: `None` and the empty string
are falsy. -/
def py_truthy (v : Option String) : Bool :=
  match v with
  | none => false
  | some s => !s.isEmpty

/-- The `all([...])` over the six variables. -/
def env_ok (e : Env) : Bool :=
  py_truthy e.SAP_USERNAME && py_truthy e.SAP_PASSWORD &&
  py_truthy e.SAP_BASE_URL && py_truthy e.IFLOW_URL &&
  py_truthy e.IFLOW_USERNAME && py_truthy e.IFLOW_PASSWORD

/-- The startup validation: `raise RuntimeError` when any variable is falsy. -/
def env_check (e : Env) : Except PyError Unit :=
  if env_ok e then .ok () else .error .runtimeError

/-- The script from its first statement through the fetch stage: the
environment validation runs first, and only when it passes does the
pagination loop run at all. -/
def script_start (env : Env) (pages : List PageResp) (url : String)
    (fuel : Nat) : Except PyError (Option FetchOutcome) :=
  match env_check env with
  | .error err => .error err
  | .ok () => .ok (fetch_pages (env.SAP_BASE_URL.getD "") pages url fuel)

/-- Outcome of the final POST as the script reports it. -/
inductive PublishReport where
  | success (body : String)
  | failure (status : Nat) (body : String)
deriving DecidableEq, Repr

/-- The tail of the script: classify the POST status, `[200, 201, 202]`
meaning success; neither branch raises. -/
def post_response (status : Nat) (body : String) : Except PyError PublishReport :=
  if status ∈ [200, 201, 202] then .ok (.success body)
  else .ok (.failure status body)

/-- Exit code of the process: 0 on normal fall-through, 1 when an uncaught
exception propagates (the script installs no handler and calls no
`sys.exit`). -/
def script_exit_code {α : Type} : Except PyError α → Nat
  | .ok _ => 0
  | .error _ => 1

/-- A raw record carrying everything the aggregation loop may touch: the four
keys present, the two timestamp values being strings. -/
def wellFormedEntry (e : Entry) : Prop :=
  e.IntegrationFlowName.isSome ∧ e.MessageGuid.isSome ∧
  (∃ s, e.LogStart = some (.str s)) ∧ (∃ s, e.LogEnd = some (.str s))

/-- Both timestamp fields are present with string values (the part of
well-formedness the loop checks before it ever touches the name and GUID). -/
def tsWellFormed (e : Entry) : Prop :=
  (∃ s, e.LogStart = some (.str s)) ∧ (∃ s, e.LogEnd = some (.str s))

/-! ## Helper lemmas -/

theorem env_ok_false_of_missing (env : Env)
    (h : env.SAP_USERNAME = none ∨ env.SAP_PASSWORD = none ∨
         env.SAP_BASE_URL = none ∨ env.IFLOW_URL = none ∨
         env.IFLOW_USERNAME = none ∨ env.IFLOW_PASSWORD = none) :
    env_ok env = false := by
  rcases h with h | h | h | h | h | h <;> simp [env_ok, py_truthy, h]

/-! ## Claim theorems -/

/-- C6: the result publisher reports success iff the POST status is 200, 201
or 202; every other status yields the failure report; neither branch raises
and the process exit code is 0 either way. -/
theorem c6_publish_status (status : Nat) (body : String) :
    (post_response status body = Except.ok (PublishReport.success body) ↔
      (status = 200 ∨ status = 201 ∨ status = 202)) ∧
    (¬ (status = 200 ∨ status = 201 ∨ status = 202) →
      post_response status body = Except.ok (PublishReport.failure status body)) ∧
    (post_response status body).isOk ∧
    script_exit_code (post_response status body) = 0 := by
  by_cases h : status = 200 ∨ status = 201 ∨ status = 202
  · simp [post_response, h, script_exit_code, Except.isOk, Except.toBool]
  · have hm : status ∉ ([200, 201, 202] : List Nat) := by simpa using h
    simp [post_response, hm, h, script_exit_code, Except.isOk, Except.toBool]

/-- Witness for C6 at status 500. -/
theorem c6_publish_status_witness :
    post_response 500 "oops" = Except.ok (PublishReport.failure 500 "oops") :=
  (c6_publish_status 500 "oops").2.1 (by decide)

/-- C8: when any of the six environment variables is absent, the script
raises the startup `RuntimeError`: for every server behaviour, start URL and
fuel, the run fails with that error before the fetch loop contributes
anything. -/
theorem c8_env_guard (env : Env)
    (h : env.SAP_USERNAME = none ∨ env.SAP_PASSWORD = none ∨
         env.SAP_BASE_URL = none ∨ env.IFLOW_URL = none ∨
         env.IFLOW_USERNAME = none ∨ env.IFLOW_PASSWORD = none) :
    ∀ (pages : List PageResp) (url : String) (fuel : Nat),
      script_start env pages url fuel = Except.error PyError.runtimeError := by
  intro pages url fuel
  simp [script_start, env_check, env_ok_false_of_missing env h]

/-- Witness for C8: an environment missing only `SAP_PASSWORD`. -/
theorem c8_env_guard_witness :
    script_start ⟨some "u", none, some "b", some "i", some "iu", some "ip"⟩ [] "x" 3 =
      Except.error PyError.runtimeError :=
  c8_env_guard ⟨some "u", none, some "b", some "i", some "iu", some "ip"⟩
    (Or.inr (Or.inl rfl)) [] "x" 3

theorem processEntry_ok_full (name guid vs ve : String) (s en : Int)
    (e : Entry) (h0 : e.IntegrationFlowName = some name)
    (h1 : e.MessageGuid = some guid) (h2 : e.LogStart = some (.str vs))
    (h3 : e.LogEnd = some (.str ve))
    (hps : parse_log_date vs = some s) (hpe : parse_log_date ve = some en) :
    processEntry e = Except.ok (some ⟨name, guid, en - s, s, en⟩) := by
  simp [processEntry, getItem, getItemStr, parseField, h0, h1, h2, h3, hps,
    hpe, Bind.bind, Except.bind, Pure.pure, Except.pure]

theorem processEntry_drop (e : Entry) (vs ve : String)
    (h1 : e.LogStart = some (.str vs)) (h2 : e.LogEnd = some (.str ve))
    (hf : parse_log_date vs = none ∨ parse_log_date ve = none) :
    processEntry e = Except.ok none := by
  rcases hf with hf | hf
  · cases hpe : parse_log_date ve <;>
      simp [processEntry, getItem, getItemStr, parseField, h1, h2, hf, hpe,
        Bind.bind, Except.bind, Pure.pure, Except.pure]
  · cases hps : parse_log_date vs <;>
      simp [processEntry, getItem, getItemStr, parseField, h1, h2, hf, hps,
        Bind.bind, Except.bind, Pure.pure, Except.pure]

theorem matchDateAt_of_head_ne (c : Char) (cs : List Char) (h : c ≠ '/') :
    matchDateAt (c :: cs) = none := by
  have : dateOpen.isPrefixOf (c :: cs) = false := by
    simp [dateOpen, List.isPrefixOf, h.symm]
  simp [matchDateAt, this]

theorem searchDate_cons_none (c : Char) (cs : List Char)
    (h : matchDateAt (c :: cs) = none) : searchDate (c :: cs) = searchDate cs := by
  simp only [searchDate, h]

theorem searchDate_digits_close (l : List Char) (h : ∀ c ∈ l, c.isDigit) :
    searchDate (l ++ [')', '/']) = none := by
  induction l with
  | nil => rfl
  | cons c cs ih =>
    have hc : c ≠ '/' := by
      intro hh
      have := h c (by simp)
      rw [hh] at this
      simp [Char.isDigit] at this
    rw [List.cons_append,
        searchDate_cons_none c (cs ++ [')', '/']) (matchDateAt_of_head_ne _ _ hc)]
    exact ih (fun x hx => h x (by simp [hx]))

theorem matchDateAt_dash (t : List Char) :
    matchDateAt ('/' :: 'D' :: 'a' :: 't' :: 'e' :: '(' :: '-' :: t) = none := by
  simp [matchDateAt, dateOpen, List.isPrefixOf]

theorem searchDate_neg (ds : List Char) (h : ∀ c ∈ ds, c.isDigit) :
    searchDate
      ('/' :: 'D' :: 'a' :: 't' :: 'e' :: '(' :: '-' :: (ds ++ [')', '/'])) =
      none := by
  rw [searchDate_cons_none _ _ (matchDateAt_dash (ds ++ [')', '/'])),
      searchDate_cons_none _ _ (matchDateAt_of_head_ne _ _ (by decide)),
      searchDate_cons_none _ _ (matchDateAt_of_head_ne _ _ (by decide)),
      searchDate_cons_none _ _ (matchDateAt_of_head_ne _ _ (by decide)),
      searchDate_cons_none _ _ (matchDateAt_of_head_ne _ _ (by decide)),
      searchDate_cons_none _ _ (matchDateAt_of_head_ne _ _ (by decide)),
      searchDate_cons_none _ _ (matchDateAt_of_head_ne _ _ (by decide))]
  exact searchDate_digits_close ds h

/-- C7: a record whose timestamps both parse with end before start gets the
negative duration `end - start`, is not clamped or rejected, and flows through
the per-flow reduction and the top-5 ranking like any other record. -/
theorem c7_negative_duration (name guid vs ve : String) (s en : Int)
    (hps : parse_log_date vs = some s) (hpe : parse_log_date ve = some en)
    (hlt : en < s) :
    processEntry ⟨some name, some guid, some (.str vs), some (.str ve)⟩ =
      Except.ok (some ⟨name, guid, en - s, s, en⟩) ∧
    en - s < 0 ∧
    duration_records [⟨some name, some guid, some (.str vs), some (.str ve)⟩] =
      Except.ok [⟨name, guid, en - s, s, en⟩] ∧
    max_durations [⟨name, guid, en - s, s, en⟩] =
      [(name, ⟨name, guid, en - s, s, en⟩)] ∧
    top_5 (max_durations [⟨name, guid, en - s, s, en⟩]) =
      [⟨name, guid, en - s, s, en⟩] := by
  have hp := processEntry_ok_full name guid vs ve s en
    ⟨some name, some guid, some (.str vs), some (.str ve)⟩ rfl rfl rfl rfl hps hpe
  refine ⟨hp, by omega, ?_, ?_, ?_⟩
  · simp [duration_records, hp, Bind.bind, Except.bind, Pure.pure, Except.pure]
  · simp [max_durations, update_max, lookup_flow, dict_put]
  · simp [top_5, max_durations, update_max, lookup_flow, dict_put, sort_desc,
      dict_values, insert_desc]

/-- Witness for C7: start 2000 ms, end 1000 ms, duration -1000 ms. -/
theorem c7_negative_duration_witness :
    duration_records
      [⟨some "A", some "g", some (.str "/Date(2000)/"), some (.str "/Date(1000)/")⟩] =
      Except.ok [⟨"A", "g", (1000 : Int) - 2000, 2000, 1000⟩] :=
  (c7_negative_duration "A" "g" "/Date(2000)/" "/Date(1000)/" 2000 1000
    (by decide) (by decide) (by decide)).2.2.1

/-- C10: a wrapped timestamp carrying a negative epoch value, such as
`/Date(-1000)/`, has no match for the unsigned-digits pattern: the parser
yields no value, and a record holding such a timestamp is dropped rather than
given a negative epoch value. -/
theorem c10_negative_epoch (ds : List Char) (h : ∀ c ∈ ds, c.isDigit) :
    parse_log_date ("/Date(-" ++ String.mk ds ++ ")/") = none ∧
    processEntry ⟨some "A", some "g",
        some (.str ("/Date(-" ++ String.mk ds ++ ")/")),
        some (.str "/Date(1000)/")⟩ = Except.ok none ∧
    duration_records [⟨some "A", some "g",
        some (.str ("/Date(-" ++ String.mk ds ++ ")/")),
        some (.str "/Date(1000)/")⟩] = Except.ok [] := by
  have hd : ("/Date(-" ++ String.mk ds ++ ")/").data =
      '/' :: 'D' :: 'a' :: 't' :: 'e' :: '(' :: '-' :: (ds ++ [')', '/']) := by
    simp [String.data_append]
  have hnone : parse_log_date ("/Date(-" ++ String.mk ds ++ ")/") = none := by
    simp [parse_log_date, hd, searchDate_neg ds h]
  have hdrop := processEntry_drop
    ⟨some "A", some "g", some (.str ("/Date(-" ++ String.mk ds ++ ")/")),
      some (.str "/Date(1000)/")⟩
    ("/Date(-" ++ String.mk ds ++ ")/") "/Date(1000)/" rfl rfl (Or.inl hnone)
  refine ⟨hnone, hdrop, ?_⟩
  simp [duration_records, hdrop, Bind.bind, Except.bind, Pure.pure, Except.pure]

/-- Witness for C10 at the literal digits 1000. -/
theorem c10_negative_epoch_witness :
    parse_log_date ("/Date(-" ++ String.mk ['1', '0', '0', '0'] ++ ")/") = none :=
  (c10_negative_epoch ['1', '0', '0', '0'] (by decide)).1

theorem processEntry_ok_of_wf (e : Entry) (h : wellFormedEntry e) :
    ∃ r, processEntry e = Except.ok r := by
  obtain ⟨hn, hg, ⟨vs, hvs⟩, ⟨ve, hve⟩⟩ := h
  obtain ⟨name, hname⟩ := Option.isSome_iff_exists.mp hn
  obtain ⟨guid, hguid⟩ := Option.isSome_iff_exists.mp hg
  cases hps : parse_log_date vs with
  | none => exact ⟨none, processEntry_drop e vs ve hvs hve (Or.inl hps)⟩
  | some s =>
    cases hpe : parse_log_date ve with
    | none => exact ⟨none, processEntry_drop e vs ve hvs hve (Or.inr hpe)⟩
    | some en =>
      exact ⟨some ⟨name, guid, en - s, s, en⟩,
        processEntry_ok_full name guid vs ve s en e hname hguid hvs hve hps hpe⟩

theorem duration_records_ok_of_wf (es : List Entry)
    (h : ∀ e ∈ es, wellFormedEntry e) :
    ∃ rs, duration_records es = Except.ok rs := by
  induction es with
  | nil => exact ⟨[], rfl⟩
  | cons e t ih =>
    obtain ⟨r, hr⟩ := processEntry_ok_of_wf e (h e (by simp))
    obtain ⟨rs, hrs⟩ := ih (fun x hx => h x (by simp [hx]))
    cases r with
    | none =>
      exact ⟨rs, by simp [duration_records, hr, hrs, Bind.bind, Except.bind,
        Pure.pure, Except.pure]⟩
    | some d =>
      exact ⟨d :: rs, by simp [duration_records, hr, hrs, Bind.bind,
        Except.bind, Pure.pure, Except.pure]⟩

theorem processEntry_error_ts (e : Entry) (h : ¬ tsWellFormed e) :
    ∃ err, processEntry e = Except.error err := by
  cases hs : e.LogStart with
  | none =>
    exact ⟨.keyError "LogStart", by
      simp [processEntry, getItem, hs, Bind.bind, Except.bind]⟩
  | some v =>
    cases v with
    | nonStr =>
      exact ⟨.typeError, by
        simp [processEntry, getItem, parseField, hs, Bind.bind, Except.bind]⟩
    | str vs =>
      cases he : e.LogEnd with
      | none =>
        exact ⟨.keyError "LogEnd", by
          simp [processEntry, getItem, parseField, hs, he, Bind.bind,
            Except.bind]⟩
      | some w =>
        cases w with
        | nonStr =>
          exact ⟨.typeError, by
            simp [processEntry, getItem, parseField, hs, he, Bind.bind,
              Except.bind]⟩
        | str ve => exact absurd ⟨⟨vs, hs⟩, ⟨ve, he⟩⟩ h

theorem processEntry_error_name (e : Entry) (vs ve : String) (s en : Int)
    (hvs : e.LogStart = some (.str vs)) (hve : e.LogEnd = some (.str ve))
    (hps : parse_log_date vs = some s) (hpe : parse_log_date ve = some en)
    (h : e.IntegrationFlowName = none ∨ e.MessageGuid = none) :
    ∃ err, processEntry e = Except.error err := by
  rcases h with h | h
  · exact ⟨.keyError "IntegrationFlowName", by
      simp [processEntry, getItem, getItemStr, parseField, hvs, hve, hps, hpe,
        h, Bind.bind, Except.bind]⟩
  · cases hn : e.IntegrationFlowName with
    | none =>
      exact ⟨.keyError "IntegrationFlowName", by
        simp [processEntry, getItem, getItemStr, parseField, hvs, hve, hps,
          hpe, hn, Bind.bind, Except.bind]⟩
    | some name =>
      exact ⟨.keyError "MessageGuid", by
        simp [processEntry, getItem, getItemStr, parseField, hvs, hve, hps,
          hpe, hn, h, Bind.bind, Except.bind]⟩

theorem duration_records_error_lift (es1 es2 : List Entry) (e : Entry)
    (err : PyError) (h1 : ∀ x ∈ es1, wellFormedEntry x)
    (he : processEntry e = Except.error err) :
    duration_records (es1 ++ e :: es2) = Except.error err := by
  induction es1 with
  | nil => simp [duration_records, he, Bind.bind, Except.bind]
  | cons x t ih =>
    obtain ⟨r, hr⟩ := processEntry_ok_of_wf x (h1 x (by simp))
    have := ih (fun y hy => h1 y (by simp [hy]))
    simp only [List.cons_append, duration_records, hr, Bind.bind,
      Except.bind, List.append_eq, this]

/-- Counterexample to C9 as stated: this record is missing both the
`IntegrationFlowName` and `MessageGuid` keys, yet the aggregation loop
silently drops it and returns normally (its `LogStart` fails to parse, and the
`continue` fires before the missing keys are ever looked up) — no `KeyError`
aborts the run. -/
theorem c9_counterexample :
    (⟨none, none, some (PyVal.str "nodate"), some (PyVal.str "/Date(1)/")⟩ :
      Entry).IntegrationFlowName = none ∧
    (⟨none, none, some (PyVal.str "nodate"), some (PyVal.str "/Date(1)/")⟩ :
      Entry).MessageGuid = none ∧
    duration_records
      [⟨none, none, some (PyVal.str "nodate"), some (PyVal.str "/Date(1)/")⟩] =
      Except.ok [] :=
  ⟨rfl, rfl, rfl⟩

/-- C9 (amended): the aggregation loop is total when every record carries the
four keys with string timestamps. A record whose `LogStart` or `LogEnd` is
missing or non-string raises (KeyError or TypeError); a record whose
timestamps both parse but which is missing `IntegrationFlowName` or
`MessageGuid` raises KeyError; but a record whose timestamps are present as
strings and fail to parse is silently dropped even when the name or GUID key
is missing. -/
theorem c9_totality_amended :
    (∀ es : List Entry, (∀ e ∈ es, wellFormedEntry e) →
      ∃ rs, duration_records es = Except.ok rs) ∧
    (∀ (es1 es2 : List Entry) (e : Entry), (∀ x ∈ es1, wellFormedEntry x) →
      ¬ tsWellFormed e →
      ∃ err, duration_records (es1 ++ e :: es2) = Except.error err) ∧
    (∀ (es1 es2 : List Entry) (e : Entry) (vs ve : String) (s en : Int),
      (∀ x ∈ es1, wellFormedEntry x) →
      e.LogStart = some (.str vs) → e.LogEnd = some (.str ve) →
      parse_log_date vs = some s → parse_log_date ve = some en →
      (e.IntegrationFlowName = none ∨ e.MessageGuid = none) →
      ∃ err, duration_records (es1 ++ e :: es2) = Except.error err) ∧
    (∀ (e : Entry) (vs ve : String),
      e.LogStart = some (.str vs) → e.LogEnd = some (.str ve) →
      (parse_log_date vs = none ∨ parse_log_date ve = none) →
      processEntry e = Except.ok none) := by
  refine ⟨duration_records_ok_of_wf, ?_, ?_, processEntry_drop⟩
  · intro es1 es2 e h1 hts
    obtain ⟨err, herr⟩ := processEntry_error_ts e hts
    exact ⟨err, duration_records_error_lift es1 es2 e err h1 herr⟩
  · intro es1 es2 e vs ve s en h1 hvs hve hps hpe hmiss
    obtain ⟨err, herr⟩ := processEntry_error_name e vs ve s en hvs hve hps hpe hmiss
    exact ⟨err, duration_records_error_lift es1 es2 e err h1 herr⟩

/-- Witness for the amended C9: a well-formed singleton list is processed
without an exception, and a record missing `LogStart` aborts the run. -/
theorem c9_totality_amended_witness :
    (∃ rs, duration_records
      [⟨some "A", some "g", some (PyVal.str "/Date(1)/"),
        some (PyVal.str "/Date(2)/")⟩] = Except.ok rs) ∧
    (∃ err, duration_records
      [(⟨some "A", some "g", none, some (PyVal.str "/Date(2)/")⟩ : Entry)] =
      Except.error err) :=
  ⟨c9_totality_amended.1 _
    (fun e he => by
      rw [List.mem_singleton] at he
      exact he ▸ ⟨rfl, rfl, ⟨"/Date(1)/", rfl⟩, ⟨"/Date(2)/", rfl⟩⟩),
   c9_totality_amended.2.1 [] []
    ⟨some "A", some "g", none, some (PyVal.str "/Date(2)/")⟩
    (fun x hx => absurd hx (List.not_mem_nil x))
    (fun hts => by
      obtain ⟨⟨vs, hvs⟩, _⟩ := hts
      exact Option.noConfusion hvs)⟩

/-- C3: for a response sequence whose last page carries no continuation link
(all pages 200, every earlier page with a live continuation, relative links
resolved against the base URL inside `next_url`), the fetch loop terminates
within one iteration per page and accumulates the concatenation of the pages'
results arrays in page order; the requested URLs are the start URL followed by
each page's resolved continuation. -/
theorem c3_pagination_terminates (base url : String) (init : List PageResp)
    (plast : PageResp)
    (h200 : ∀ p ∈ init, p.status = 200)
    (hnext : ∀ p ∈ init, (next_url base p.nextLink).isSome)
    (hl200 : plast.status = 200)
    (hlnone : next_url base plast.nextLink = none) :
    ∃ o, fetch_pages base (init ++ [plast]) url (init.length + 1) = some o ∧
      o.results = ((init ++ [plast]).map PageResp.results).flatten ∧
      o.urls = url :: init.map (fun p => (next_url base p.nextLink).getD "") := by
  induction init generalizing url with
  | nil =>
    refine ⟨⟨[.requesting url], [url], plast.results⟩, ?_, by simp, by simp⟩
    simp [fetch_pages, hl200, hlnone]
  | cons p t ih =>
    obtain ⟨u, hu⟩ := Option.isSome_iff_exists.mp (hnext p (by simp))
    obtain ⟨o, ho, hres, hurls⟩ := ih u (fun q hq => h200 q (by simp [hq]))
      (fun q hq => hnext q (by simp [hq]))
    refine ⟨⟨.requesting url :: o.logs, url :: o.urls, p.results ++ o.results⟩,
      ?_, ?_, ?_⟩
    · simp only [List.cons_append, List.length_cons, fetch_pages,
        h200 p (by simp), if_true, hu, List.append_eq, ho]
    · simp [hres]
    · simp [hurls, hu]

/-- Witness for C3: a single page with no continuation link. -/
theorem c3_pagination_terminates_witness :
    ∃ o, fetch_pages "b" ([] ++ [⟨200, [], none, "ok"⟩]) "u"
        (List.length ([] : List PageResp) + 1) = some o ∧
      o.results = (([] ++ [(⟨200, [], none, "ok"⟩ : PageResp)]).map
        PageResp.results).flatten ∧
      o.urls = "u" :: ([] : List PageResp).map
        (fun p => (next_url "b" p.nextLink).getD "") :=
  c3_pagination_terminates "b" "u" [] ⟨200, [], none, "ok"⟩
    (fun p hp => absurd hp (List.not_mem_nil p))
    (fun p hp => absurd hp (List.not_mem_nil p)) rfl rfl

/-- C5: when a non-200 response arrives after a run of good pages, the loop
logs the failing status with the body as its final console event, requests
nothing beyond that page, returns normally (no exception), and the downstream
aggregation sees exactly the records of the pages received before the
failure. -/
theorem c5_partial_results (base url : String) (good : List PageResp)
    (bad : PageResp) (rest : List PageResp)
    (h200 : ∀ p ∈ good, p.status = 200)
    (hnext : ∀ p ∈ good, (next_url base p.nextLink).isSome)
    (hbad : bad.status ≠ 200) :
    ∃ o, fetch_pages base (good ++ bad :: rest) url (good.length + 1) = some o ∧
      o.results = (good.map PageResp.results).flatten ∧
      o.logs.getLast? = some (.requestFailed bad.status bad.body) ∧
      o.urls.length = good.length + 1 ∧
      duration_records o.results =
        duration_records ((good.map PageResp.results).flatten) := by
  induction good generalizing url with
  | nil =>
    refine ⟨⟨[.requesting url, .requestFailed bad.status bad.body], [url], []⟩,
      ?_, by simp, by simp, by simp, rfl⟩
    simp [fetch_pages, hbad]
  | cons p t ih =>
    obtain ⟨u, hu⟩ := Option.isSome_iff_exists.mp (hnext p (by simp))
    obtain ⟨o, ho, hres, hlog, hlen, _⟩ := ih u (fun q hq => h200 q (by simp [hq]))
      (fun q hq => hnext q (by simp [hq]))
    refine ⟨⟨.requesting url :: o.logs, url :: o.urls, p.results ++ o.results⟩,
      ?_, by simp [hres], ?_, by simp [hlen], by simp [hres]⟩
    · simp only [List.cons_append, List.length_cons, fetch_pages,
        h200 p (by simp), if_true, hu, List.append_eq, ho]
    · cases hl : o.logs with
      | nil => rw [hl] at hlog; simp at hlog
      | cons a l =>
        rw [hl] at hlog
        simpa [List.getLast?_cons_cons] using hlog

/-- Witness for C5: the first request already fails with status 500. -/
theorem c5_partial_results_witness :
    ∃ o, fetch_pages "b" ([] ++ (⟨500, [], none, "boom"⟩ : PageResp) :: []) "u"
        (List.length ([] : List PageResp) + 1) = some o ∧
      o.results = (([] : List PageResp).map PageResp.results).flatten ∧
      o.logs.getLast? = some (.requestFailed 500 "boom") ∧
      o.urls.length = List.length ([] : List PageResp) + 1 ∧
      duration_records o.results =
        duration_records ((([] : List PageResp).map PageResp.results).flatten) :=
  c5_partial_results "b" "u" [] ⟨500, [], none, "boom"⟩ []
    (fun p hp => absurd hp (List.not_mem_nil p))
    (fun p hp => absurd hp (List.not_mem_nil p)) (by decide)

theorem lookup_dict_put (m : List (String × DurationRecord)) (k f : String)
    (r : DurationRecord) :
    lookup_flow (dict_put m k r) f = if k = f then some r else lookup_flow m f := by
  induction m with
  | nil => simp [dict_put, lookup_flow]
  | cons kv rest ih =>
    obtain ⟨k0, v0⟩ := kv
    by_cases h0 : k0 = k
    · subst h0
      by_cases hf : k0 = f <;> simp [dict_put, lookup_flow, hf]
    · by_cases hf : k0 = f
      · subst hf
        have : ¬ k = k0 := fun hh => h0 hh.symm
        simp [dict_put, lookup_flow, h0, this]
      · simp [dict_put, lookup_flow, h0, hf, ih]

theorem lookup_update_max (m : List (String × DurationRecord))
    (r : DurationRecord) (f : String) :
    lookup_flow (update_max m r) f =
      if r.IntegrationFlowName = f then keep_max (lookup_flow m f) r
      else lookup_flow m f := by
  unfold update_max
  cases hm : lookup_flow m r.IntegrationFlowName with
  | none =>
    rw [lookup_dict_put]
    by_cases hf : r.IntegrationFlowName = f
    · subst hf; simp [keep_max, hm]
    · simp [hf]
  | some old =>
    by_cases hd : old.DurationMs < r.DurationMs
    · simp only [hd, if_true]
      rw [lookup_dict_put]
      by_cases hf : r.IntegrationFlowName = f
      · subst hf; simp [keep_max, hm, hd]
      · simp [hf]
    · simp only [hd, if_false]
      by_cases hf : r.IntegrationFlowName = f
      · subst hf; simp [keep_max, hm, hd]
      · simp [hf]

theorem lookup_foldl_update_max (rs : List DurationRecord)
    (m : List (String × DurationRecord)) (f : String) :
    lookup_flow (List.foldl update_max m rs) f =
      List.foldl keep_max (lookup_flow m f)
        (rs.filter (fun r => r.IntegrationFlowName == f)) := by
  induction rs generalizing m with
  | nil => simp
  | cons r t ih =>
    by_cases hf : r.IntegrationFlowName = f
    · simp only [List.foldl_cons, List.filter_cons, hf, beq_self_eq_true,
        if_true, ih, lookup_update_max, List.foldl_cons]
    · have hb : (r.IntegrationFlowName == f) = false := by
        simp [hf]
      simp only [List.foldl_cons, List.filter_cons, hb, ih,
        lookup_update_max, hf, if_false]
      simp

theorem foldl_keep_max_some (l : List DurationRecord) :
    ∀ a : DurationRecord, ∃ rec,
      List.foldl keep_max (some a) l = some rec ∧ rec ∈ a :: l ∧
      (∀ x ∈ a :: l, x.DurationMs ≤ rec.DurationMs) ∧
      (a :: l).find? (fun x => x.DurationMs == rec.DurationMs) = some rec := by
  induction l with
  | nil =>
    intro a
    exact ⟨a, rfl, by simp, by simp, by simp⟩
  | cons r t ih =>
    intro a
    by_cases hd : a.DurationMs < r.DurationMs
    · obtain ⟨rec, hfold, hmem, hmax, hfind⟩ := ih r
      refine ⟨rec, ?_, ?_, ?_, ?_⟩
      · simpa [keep_max, hd] using hfold
      · rcases List.mem_cons.mp hmem with h | h
        · simp [h]
        · simp [h]
      · intro x hx
        rcases List.mem_cons.mp hx with h | h
        · subst h
          have hr := hmax r (by simp)
          omega
        · exact hmax x h
      · have ha : (a.DurationMs == rec.DurationMs) = false := by
          have hr := hmax r (by simp)
          have : a.DurationMs < rec.DurationMs := by omega
          simp [this.ne]
        rw [List.find?_cons_of_neg _ (by simp [ha])]
        exact hfind
    · obtain ⟨rec, hfold, hmem, hmax, hfind⟩ := ih a
      refine ⟨rec, ?_, ?_, ?_, ?_⟩
      · simpa [keep_max, hd] using hfold
      · rcases List.mem_cons.mp hmem with h | h
        · simp [h]
        · simp [h]
      · intro x hx
        rcases List.mem_cons.mp hx with h | h
        · exact h ▸ hmax a (by simp)
        · rcases List.mem_cons.mp h with h2 | h2
          · subst h2
            have := hmax a (by simp)
            omega
          · exact hmax x (by simp [h2])
      · by_cases hae : a.DurationMs = rec.DurationMs
        · rw [List.find?_cons_of_pos _ (by simp [hae])]
          rw [List.find?_cons_of_pos _ (by simp [hae])] at hfind
          exact hfind
        · have hane : (a.DurationMs == rec.DurationMs) = false := by simp [hae]
          have har : a.DurationMs < rec.DurationMs := by
            have := hmax a (by simp)
            omega
          have hrne : (r.DurationMs == rec.DurationMs) = false := by
            have : r.DurationMs < rec.DurationMs := by omega
            simp [this.ne]
          rw [List.find?_cons_of_neg _ (by simp [hane]),
              List.find?_cons_of_neg _ (by simp [hrne])]
          rw [List.find?_cons_of_neg _ (by simp [hane])] at hfind
          exact hfind

theorem dict_keys_cons (kv : String × DurationRecord)
    (rest : List (String × DurationRecord)) :
    dict_keys (kv :: rest) = kv.1 :: dict_keys rest := rfl

theorem lookup_isSome_iff_mem_keys (m : List (String × DurationRecord))
    (f : String) : (lookup_flow m f).isSome ↔ f ∈ dict_keys m := by
  induction m with
  | nil => simp [lookup_flow, dict_keys]
  | cons kv rest ih =>
    obtain ⟨k0, v0⟩ := kv
    by_cases h : k0 = f
    · simp [lookup_flow, dict_keys_cons, h]
    · rw [dict_keys_cons]
      simp only [lookup_flow, h, if_false, List.mem_cons, ih]
      constructor
      · exact Or.inr
      · rintro (h1 | h1)
        · exact absurd h1.symm h
        · exact h1

theorem dict_keys_put_of_mem (m : List (String × DurationRecord)) (k : String)
    (r : DurationRecord) (h : k ∈ dict_keys m) :
    dict_keys (dict_put m k r) = dict_keys m := by
  induction m with
  | nil => simp [dict_keys] at h
  | cons kv rest ih =>
    obtain ⟨k0, v0⟩ := kv
    by_cases h0 : k0 = k
    · rw [show dict_put ((k0, v0) :: rest) k r = (k0, r) :: rest from by
        simp [dict_put, h0]]
      rw [dict_keys_cons, dict_keys_cons]
    · have hk : k ∈ dict_keys rest := by
        rcases List.mem_cons.mp (by rw [dict_keys_cons] at h; exact h) with h1 | h1
        · exact absurd h1.symm h0
        · exact h1
      rw [show dict_put ((k0, v0) :: rest) k r = (k0, v0) :: dict_put rest k r from by
        simp [dict_put, h0]]
      rw [dict_keys_cons, dict_keys_cons, ih hk]

theorem dict_keys_put_of_notmem (m : List (String × DurationRecord))
    (k : String) (r : DurationRecord) (h : k ∉ dict_keys m) :
    dict_keys (dict_put m k r) = dict_keys m ++ [k] := by
  induction m with
  | nil => simp [dict_put, dict_keys]
  | cons kv rest ih =>
    obtain ⟨k0, v0⟩ := kv
    have hne : k0 ≠ k := by
      intro hh
      exact h (by rw [dict_keys_cons]; simp [hh])
    have hk : k ∉ dict_keys rest := by
      intro hh
      exact h (by rw [dict_keys_cons]; simp [hh])
    rw [show dict_put ((k0, v0) :: rest) k r = (k0, v0) :: dict_put rest k r from by
      simp [dict_put, hne]]
    rw [dict_keys_cons, dict_keys_cons, ih hk, List.cons_append]

theorem dict_keys_update_max (m : List (String × DurationRecord))
    (r : DurationRecord) :
    dict_keys (update_max m r) =
      if r.IntegrationFlowName ∈ dict_keys m then dict_keys m
      else dict_keys m ++ [r.IntegrationFlowName] := by
  unfold update_max
  cases hm : lookup_flow m r.IntegrationFlowName with
  | none =>
    have hnot : r.IntegrationFlowName ∉ dict_keys m := by
      rw [← lookup_isSome_iff_mem_keys]
      simp [hm]
    simp [hnot, dict_keys_put_of_notmem m _ r hnot]
  | some old =>
    have hmem : r.IntegrationFlowName ∈ dict_keys m := by
      rw [← lookup_isSome_iff_mem_keys]
      simp [hm]
    by_cases hd : old.DurationMs < r.DurationMs <;>
      simp [hd, hmem, dict_keys_put_of_mem m _ r hmem]

theorem mem_keys_update_max (m : List (String × DurationRecord))
    (r : DurationRecord) (f : String) :
    f ∈ dict_keys (update_max m r) ↔
      f = r.IntegrationFlowName ∨ f ∈ dict_keys m := by
  rw [dict_keys_update_max]
  by_cases hm : r.IntegrationFlowName ∈ dict_keys m
  · simp only [hm, if_true]
    constructor
    · exact Or.inr
    · rintro (h | h)
      · exact h ▸ hm
      · exact h
  · simp [hm, List.mem_append, or_comm]

theorem mem_keys_foldl_update_max (rs : List DurationRecord)
    (m : List (String × DurationRecord)) (f : String) :
    f ∈ dict_keys (List.foldl update_max m rs) ↔
      f ∈ dict_keys m ∨ f ∈ rs.map DurationRecord.IntegrationFlowName := by
  induction rs generalizing m with
  | nil => simp
  | cons r t ih =>
    simp only [List.foldl_cons, ih, mem_keys_update_max, List.map_cons,
      List.mem_cons]
    tauto

theorem nodup_keys_update_max (m : List (String × DurationRecord))
    (r : DurationRecord) (h : (dict_keys m).Nodup) :
    (dict_keys (update_max m r)).Nodup := by
  rw [dict_keys_update_max]
  by_cases hm : r.IntegrationFlowName ∈ dict_keys m
  · simpa [hm] using h
  · simp [hm, List.nodup_append, h]

theorem nodup_keys_foldl_update_max (rs : List DurationRecord)
    (m : List (String × DurationRecord)) (h : (dict_keys m).Nodup) :
    (dict_keys (List.foldl update_max m rs)).Nodup := by
  induction rs generalizing m with
  | nil => exact h
  | cons r t ih => exact ih (update_max m r) (nodup_keys_update_max m r h)

/-- C1: for every non-empty record list, the per-flow max reduction holds
exactly one entry per distinct flow name (keys are duplicate-free and are
exactly the flow names occurring in the input, each with a stored record);
the stored record of a flow belongs to the input, carries that flow name, its
duration is at least the duration of every input record of the same flow, and
it is the first record of that flow attaining that duration (ties keep the
first-seen record; replacement happens only on a strictly larger duration). -/
theorem c1_per_flow_max (rs : List DurationRecord) (hne : rs ≠ []) :
    (dict_keys (max_durations rs)).Nodup ∧
    (∀ f, f ∈ dict_keys (max_durations rs) ↔
      f ∈ rs.map DurationRecord.IntegrationFlowName) ∧
    (∀ f, f ∈ rs.map DurationRecord.IntegrationFlowName →
      (lookup_flow (max_durations rs) f).isSome) ∧
    (∀ f rec, lookup_flow (max_durations rs) f = some rec →
      rec ∈ rs ∧ rec.IntegrationFlowName = f ∧
      (∀ r ∈ rs, r.IntegrationFlowName = f → r.DurationMs ≤ rec.DurationMs) ∧
      (rs.filter (fun r => r.IntegrationFlowName == f)).find?
        (fun x => x.DurationMs == rec.DurationMs) = some rec) := by
  refine ⟨nodup_keys_foldl_update_max rs [] (by simp [dict_keys]), ?_, ?_, ?_⟩
  · intro f
    have := mem_keys_foldl_update_max rs [] f
    simpa [dict_keys] using this
  · intro f hf
    rw [lookup_isSome_iff_mem_keys]
    exact (mem_keys_foldl_update_max rs [] f).mpr (Or.inr hf)
  · intro f rec hrec
    rw [show max_durations rs = List.foldl update_max [] rs from rfl,
      lookup_foldl_update_max] at hrec
    have hl0 : lookup_flow [] f = none := rfl
    rw [hl0] at hrec
    cases hfil : rs.filter (fun r => r.IntegrationFlowName == f) with
    | nil => rw [hfil] at hrec; simp at hrec
    | cons a t =>
      rw [hfil] at hrec
      have hstep : List.foldl keep_max none (a :: t) =
          List.foldl keep_max (some a) t := rfl
      rw [hstep] at hrec
      obtain ⟨rec2, hfold, hmem, hmax, hfind⟩ := foldl_keep_max_some t a
      rw [hfold] at hrec
      obtain rfl : rec2 = rec := by simpa using hrec
      have hmem2 : rec2 ∈ rs.filter (fun r => r.IntegrationFlowName == f) := by
        rw [hfil]; exact hmem
      have hmf := List.mem_filter.mp hmem2
      refine ⟨hmf.1, by simpa using hmf.2, ?_, ?_⟩
      · intro r hr hrf
        have : r ∈ rs.filter (fun x => x.IntegrationFlowName == f) :=
          List.mem_filter.mpr ⟨hr, by simp [hrf]⟩
        rw [hfil] at this
        exact hmax r this
      · exact hfind

/-- Witness for C1 on a singleton record list. -/
theorem c1_per_flow_max_witness :
    (dict_keys (max_durations [⟨"A", "g1", 1500, 1000, 2500⟩])).Nodup :=
  (c1_per_flow_max [⟨"A", "g1", 1500, 1000, 2500⟩] (by simp)).1

theorem mem_insert_desc (x a : DurationRecord) (l : List DurationRecord) :
    a ∈ insert_desc x l ↔ a = x ∨ a ∈ l := by
  induction l with
  | nil => simp [insert_desc]
  | cons y ys ih =>
    by_cases hd : x.DurationMs < y.DurationMs
    · simp only [insert_desc, hd, if_true, List.mem_cons, ih]
      tauto
    · simp only [insert_desc, hd, if_false, List.mem_cons]

theorem length_insert_desc (x : DurationRecord) (l : List DurationRecord) :
    (insert_desc x l).length = l.length + 1 := by
  induction l with
  | nil => simp [insert_desc]
  | cons y ys ih =>
    by_cases hd : x.DurationMs < y.DurationMs <;>
      simp [insert_desc, hd, ih]

theorem pairwise_insert_desc (x : DurationRecord) (l : List DurationRecord)
    (h : l.Pairwise (fun a b => b.DurationMs ≤ a.DurationMs)) :
    (insert_desc x l).Pairwise (fun a b => b.DurationMs ≤ a.DurationMs) := by
  induction l with
  | nil => simp [insert_desc]
  | cons y ys ih =>
    rcases List.pairwise_cons.mp h with ⟨hy, hys⟩
    by_cases hd : x.DurationMs < y.DurationMs
    · rw [show insert_desc x (y :: ys) = y :: insert_desc x ys from by
        simp [insert_desc, hd]]
      refine List.pairwise_cons.mpr ⟨?_, ih hys⟩
      intro b hb
      rcases (mem_insert_desc x b ys).mp hb with hb | hb
      · subst hb; omega
      · exact hy b hb
    · rw [show insert_desc x (y :: ys) = x :: y :: ys from by
        simp [insert_desc, hd]]
      refine List.pairwise_cons.mpr ⟨?_, h⟩
      intro b hb
      rcases List.mem_cons.mp hb with hb | hb
      · subst hb; omega
      · have := hy b hb; omega

theorem sorted_sort_desc (l : List DurationRecord) :
    (sort_desc l).Pairwise (fun a b => b.DurationMs ≤ a.DurationMs) := by
  induction l with
  | nil => simp [sort_desc]
  | cons a t ih => exact pairwise_insert_desc a (sort_desc t) ih

theorem length_sort_desc (l : List DurationRecord) :
    (sort_desc l).length = l.length := by
  induction l with
  | nil => rfl
  | cons a t ih =>
    show (insert_desc a (sort_desc t)).length = t.length + 1
    rw [length_insert_desc, ih]

theorem filter_insert_desc (x : DurationRecord) (l : List DurationRecord)
    (d : Int) :
    (insert_desc x l).filter (fun r => r.DurationMs == d) =
      (x :: l).filter (fun r => r.DurationMs == d) := by
  induction l with
  | nil => simp [insert_desc]
  | cons y ys ih =>
    by_cases hd : x.DurationMs < y.DurationMs
    · rw [show insert_desc x (y :: ys) = y :: insert_desc x ys from by
        simp [insert_desc, hd]]
      by_cases hx : x.DurationMs = d <;> by_cases hy : y.DurationMs = d
      · omega
      · simp [List.filter_cons, hx, hy, ih]
      · simp [List.filter_cons, hx, hy, ih]
      · simp [List.filter_cons, hx, hy, ih]
    · rw [show insert_desc x (y :: ys) = x :: y :: ys from by
        simp [insert_desc, hd]]

theorem filter_sort_desc (l : List DurationRecord) (d : Int) :
    (sort_desc l).filter (fun r => r.DurationMs == d) =
      l.filter (fun r => r.DurationMs == d) := by
  induction l with
  | nil => rfl
  | cons a t ih =>
    show (insert_desc a (sort_desc t)).filter _ = _
    rw [filter_insert_desc]
    by_cases ha : a.DurationMs = d <;> simp [List.filter_cons, ha, ih]

theorem length_max_durations (rs : List DurationRecord) :
    (max_durations rs).length =
      (rs.map DurationRecord.IntegrationFlowName).dedup.length := by
  have h1 : (dict_keys (max_durations rs)).Nodup :=
    nodup_keys_foldl_update_max rs [] (by simp [dict_keys])
  have h2 : (rs.map DurationRecord.IntegrationFlowName).dedup.Nodup :=
    (rs.map DurationRecord.IntegrationFlowName).nodup_dedup
  have hmem : ∀ f, f ∈ dict_keys (max_durations rs) ↔
      f ∈ (rs.map DurationRecord.IntegrationFlowName).dedup := by
    intro f
    rw [List.mem_dedup]
    have := mem_keys_foldl_update_max rs [] f
    simpa [dict_keys] using this
  have hfin : (dict_keys (max_durations rs)).toFinset =
      (rs.map DurationRecord.IntegrationFlowName).dedup.toFinset := by
    ext a
    simp only [List.mem_toFinset]
    exact hmem a
  have hlen : (dict_keys (max_durations rs)).length =
      (rs.map DurationRecord.IntegrationFlowName).dedup.length := by
    rw [← List.toFinset_card_of_nodup h1, ← List.toFinset_card_of_nodup h2, hfin]
  simpa [dict_keys] using hlen

/-- C2: the top-5 selection over the per-flow reduced mapping is sorted by
duration descending, its length is min(5, number of distinct flow names), and
the sort is stable: records of any fixed duration appear in the sorted list
exactly in their discovery (insertion) order. -/
theorem c2_top5_sorted (rs : List DurationRecord) :
    List.Pairwise (fun a b => b.DurationMs ≤ a.DurationMs)
      (top_5 (max_durations rs)) ∧
    (top_5 (max_durations rs)).length =
      min 5 (rs.map DurationRecord.IntegrationFlowName).dedup.length ∧
    (∀ d, (sort_desc (dict_values (max_durations rs))).filter
        (fun r => r.DurationMs == d) =
      (dict_values (max_durations rs)).filter (fun r => r.DurationMs == d)) := by
  refine ⟨?_, ?_, ?_⟩
  · exact List.Pairwise.sublist (List.take_sublist 5 _)
      (sorted_sort_desc (dict_values (max_durations rs)))
  · show ((sort_desc (dict_values (max_durations rs))).take 5).length = _
    rw [List.length_take, length_sort_desc]
    have : (dict_values (max_durations rs)).length = (max_durations rs).length := by
      simp [dict_values]
    rw [this, length_max_durations]
  · intro d
    exact filter_sort_desc (dict_values (max_durations rs)) d

theorem matchDateAt_some (l : List Char) (n : Nat)
    (h : matchDateAt l = some n) :
    ∃ ds post, l = dateOpen ++ ds ++ dateClose ++ post ∧ ds ≠ [] ∧
      (∀ c ∈ ds, c.isDigit) ∧ n = digitsToNat ds := by
  unfold matchDateAt at h
  by_cases hp : dateOpen.isPrefixOf l
  case neg => rw [if_neg hp] at h; exact absurd h (by simp)
  rw [if_pos hp] at h
  obtain ⟨t, ht⟩ := List.isPrefixOf_iff_prefix.mp hp
  have hdrop : l.drop dateOpen.length = t := by
    rw [← ht]
    exact List.drop_left dateOpen t
  rw [hdrop] at h
  set ds2 := t.takeWhile Char.isDigit with hds2
  by_cases hne : ds2 = []
  case pos => rw [if_pos hne] at h; exact absurd h (by simp)
  rw [if_neg hne] at h
  by_cases hc : dateClose.isPrefixOf (t.dropWhile Char.isDigit)
  case neg => rw [if_neg hc] at h; exact absurd h (by simp)
  rw [if_pos hc] at h
  obtain ⟨post, hpost⟩ := List.isPrefixOf_iff_prefix.mp hc
  have hsplit : t = ds2 ++ (dateClose ++ post) := by
    conv_lhs => rw [← List.takeWhile_append_dropWhile Char.isDigit t]
    rw [hpost, hds2]
  refine ⟨ds2, post, ?_, hne,
    fun c hcd => List.mem_takeWhile_imp (hds2 ▸ hcd), by
      injection h with h2
      exact h2.symm⟩
  rw [← ht, hsplit]
  simp [List.append_assoc]

theorem matchDateAt_at_pattern (ds post : List Char) (hne : ds ≠ [])
    (hd : ∀ c ∈ ds, c.isDigit) :
    matchDateAt (dateOpen ++ ds ++ dateClose ++ post) = some (digitsToNat ds) := by
  have hassoc : dateOpen ++ ds ++ dateClose ++ post =
      dateOpen ++ (ds ++ (dateClose ++ post)) := by
    simp [List.append_assoc]
  rw [hassoc]
  have hp : dateOpen.isPrefixOf (dateOpen ++ (ds ++ (dateClose ++ post))) :=
    List.isPrefixOf_iff_prefix.mpr ⟨ds ++ (dateClose ++ post), rfl⟩
  have hdrop : (dateOpen ++ (ds ++ (dateClose ++ post))).drop dateOpen.length =
      ds ++ (dateClose ++ post) := List.drop_left dateOpen _
  have htake : (ds ++ (dateClose ++ post)).takeWhile Char.isDigit = ds := by
    rw [List.takeWhile_append_of_pos hd]
    simp [dateClose]
  have hdw : (ds ++ (dateClose ++ post)).dropWhile Char.isDigit =
      dateClose ++ post := by
    rw [List.dropWhile_append_of_pos hd]
    simp [dateClose]
  unfold matchDateAt
  rw [if_pos hp, hdrop, htake, if_neg hne, hdw,
    if_pos (List.isPrefixOf_iff_prefix.mpr ⟨post, rfl⟩)]

theorem searchDate_some (l : List Char) (n : Nat) (h : searchDate l = some n) :
    ∃ pre ds post, l = pre ++ dateOpen ++ ds ++ dateClose ++ post ∧ ds ≠ [] ∧
      (∀ c ∈ ds, c.isDigit) ∧ n = digitsToNat ds := by
  induction l with
  | nil => exact absurd h (by simp [searchDate])
  | cons c cs ih =>
    cases hm : matchDateAt (c :: cs) with
    | some m =>
      have hnm : m = n := by
        rw [searchDate, hm] at h
        injection h
      obtain ⟨ds, post, heq, hne, hd, hdig⟩ := matchDateAt_some (c :: cs) m hm
      exact ⟨[], ds, post, by simpa using heq, hne, hd, hnm ▸ hdig⟩
    | none =>
      have h2 : searchDate cs = some n := by
        rw [searchDate, hm] at h
        exact h
      obtain ⟨pre, ds, post, heq, hne, hd, hdig⟩ := ih h2
      exact ⟨c :: pre, ds, post, by simp [heq], hne, hd, hdig⟩

theorem searchDate_isSome_of_pattern (pre : List Char) :
    ∀ (l ds post : List Char), l = pre ++ dateOpen ++ ds ++ dateClose ++ post →
    ds ≠ [] → (∀ c ∈ ds, c.isDigit) → (searchDate l).isSome := by
  induction pre with
  | nil =>
    intro l ds post heq hne hd
    have hm := matchDateAt_at_pattern ds post hne hd
    have hl : l = '/' :: (['D', 'a', 't', 'e', '('] ++ ds ++ dateClose ++ post) := by
      rw [heq]
      simp [dateOpen]
    rw [hl]
    rw [searchDate]
    have hm2 : matchDateAt ('/' :: (['D', 'a', 't', 'e', '('] ++ ds ++ dateClose ++ post)) =
        some (digitsToNat ds) := by
      have : '/' :: (['D', 'a', 't', 'e', '('] ++ ds ++ dateClose ++ post) =
          dateOpen ++ ds ++ dateClose ++ post := by
        simp [dateOpen]
      rw [this]
      exact hm
    rw [hm2]
    simp
  | cons c pre2 ih =>
    intro l ds post heq hne hd
    have hl : l = c :: (pre2 ++ dateOpen ++ ds ++ dateClose ++ post) := by
      rw [heq]
      simp
    rw [hl]
    cases hm : matchDateAt (c :: (pre2 ++ dateOpen ++ ds ++ dateClose ++ post)) with
    | some m =>
      rw [searchDate, hm]
      simp
    | none =>
      rw [searchDate, hm]
      exact ih _ ds post rfl hne hd

theorem searchDate_leftmost (pre : List Char) :
    ∀ (l ds post : List Char), l = pre ++ dateOpen ++ ds ++ dateClose ++ post →
    ds ≠ [] → (∀ c ∈ ds, c.isDigit) →
    (∀ (q es ps : List Char), l = q ++ dateOpen ++ es ++ dateClose ++ ps →
      es ≠ [] → (∀ c ∈ es, c.isDigit) → pre.length ≤ q.length) →
    searchDate l = some (digitsToNat ds) := by
  induction pre with
  | nil =>
    intro l ds post heq hne hd _
    have hl : l = '/' :: (['D', 'a', 't', 'e', '('] ++ ds ++ dateClose ++ post) := by
      rw [heq]
      simp [dateOpen]
    have hm : matchDateAt ('/' :: (['D', 'a', 't', 'e', '('] ++ ds ++ dateClose ++ post)) =
        some (digitsToNat ds) := by
      have h2 : '/' :: (['D', 'a', 't', 'e', '('] ++ ds ++ dateClose ++ post) =
          dateOpen ++ ds ++ dateClose ++ post := by
        simp [dateOpen]
      rw [h2]
      exact matchDateAt_at_pattern ds post hne hd
    rw [hl, searchDate, hm]
  | cons c pre2 ih =>
    intro l ds post heq hne hd hmin
    have hl : l = c :: (pre2 ++ dateOpen ++ ds ++ dateClose ++ post) := by
      rw [heq]
      simp
    have hm : matchDateAt (c :: (pre2 ++ dateOpen ++ ds ++ dateClose ++ post)) = none := by
      cases hm0 : matchDateAt (c :: (pre2 ++ dateOpen ++ ds ++ dateClose ++ post)) with
      | none => rfl
      | some m =>
        obtain ⟨es, ps, heq2, hne2, hd2, _⟩ :=
          matchDateAt_some _ m hm0
        have := hmin [] es ps (by rw [hl, heq2]; simp) hne2 hd2
        simp at this
    rw [hl, searchDate, hm]
    exact ih _ ds post rfl hne hd (fun q es ps heq2 hne2 hd2 => by
      have := hmin (c :: q) es ps (by rw [hl, heq2]; simp) hne2 hd2
      simpa using this)

/-- C4: the timestamp parser succeeds exactly on strings containing the
wrapped pattern (the literal opener, a non-empty digit run, the literal
closer); on the leftmost such occurrence it returns exactly the embedded
integer read in decimal; and the aggregation stage maps a record whose
`LogStart` or `LogEnd` string fails to parse to no DurationRecord and no
error. -/
theorem c4_timestamp_parse :
    (∀ s : String, (∃ n, parse_log_date s = some n) ↔
      ∃ pre ds post, s.data = pre ++ dateOpen ++ ds ++ dateClose ++ post ∧
        ds ≠ [] ∧ ∀ c ∈ ds, c.isDigit) ∧
    (∀ (s : String) (pre ds post : List Char),
      s.data = pre ++ dateOpen ++ ds ++ dateClose ++ post → ds ≠ [] →
      (∀ c ∈ ds, c.isDigit) →
      (∀ (q es ps : List Char),
        s.data = q ++ dateOpen ++ es ++ dateClose ++ ps → es ≠ [] →
        (∀ c ∈ es, c.isDigit) → pre.length ≤ q.length) →
      parse_log_date s = some (Int.ofNat (digitsToNat ds))) ∧
    (∀ (e : Entry) (vs ve : String),
      e.LogStart = some (.str vs) → e.LogEnd = some (.str ve) →
      (parse_log_date vs = none ∨ parse_log_date ve = none) →
      processEntry e = Except.ok none) := by
  refine ⟨?_, ?_, processEntry_drop⟩
  · intro s
    constructor
    · rintro ⟨n, hn⟩
      unfold parse_log_date at hn
      cases hs : searchDate s.data with
      | none => rw [hs] at hn; simp at hn
      | some m =>
        obtain ⟨pre, ds, post, heq, hne, hd, _⟩ := searchDate_some s.data m hs
        exact ⟨pre, ds, post, heq, hne, hd⟩
    · rintro ⟨pre, ds, post, heq, hne, hd⟩
      have hsome := searchDate_isSome_of_pattern pre s.data ds post heq hne hd
      unfold parse_log_date
      cases hs : searchDate s.data with
      | none => rw [hs] at hsome; simp at hsome
      | some m => exact ⟨Int.ofNat m, rfl⟩
  · intro s pre ds post heq hne hd hmin
    unfold parse_log_date
    rw [searchDate_leftmost pre s.data ds post heq hne hd hmin]
    rfl

/-- Witness for C4 at the literal string of the spec example. -/
theorem c4_timestamp_parse_witness :
    parse_log_date "/Date(1500)/" = some (Int.ofNat (digitsToNat ['1', '5', '0', '0'])) :=
  c4_timestamp_parse.2.1 "/Date(1500)/" [] ['1', '5', '0', '0'] []
    (by decide) (by decide) (by decide)
    (fun q es ps h1 h2 h3 => by simp)
